import Mathlib

/-!
# Verification of the chunking and vector-store core

Shallow embedding of the two core modules of the repository:

* `scripts/document_parser.py` — `DocumentParser.chunk_text` (lines 147-182):
  sliding-window chunking with sentence-boundary truncation.  Text is modelled
  as `List Char`; Python slices (which accept negative and out-of-range
  indices) are modelled by `pySlice`; `str.rfind` by `rfindPos`;
  `str.strip()` by `pyStrip` (ASCII whitespace set, matching CPython for the
  ASCII range).  The `while start < len(text)` loop is modelled with explicit
  fuel (`chunkLoopFull`); termination of the Python loop is the statement
  `chunkTerminates` (some fuel suffices).  The float comparison
  `last_punct > chunk_size * 0.7` is modelled exactly: `pyCutThreshold`
  computes the IEEE-754 binary64 product of `chunk_size` and the double
  literal `0.7` (round to 53 significant bits, ties to even, at every step,
  exactly as CPython does) and compares the integer `last_punct` against it
  exactly, so boundary chunk sizes such as 90 — where `90 * 0.7` rounds just
  below `63` and the program accepts a cut at index `63` — behave as in the
  program.

* `scripts/vector_store.py` — `VectorStore` (`__init__`/`_create_index`/
  `add_documents`/`search`).  Embedding vectors and metadata dicts are opaque
  type parameters; the sentence-transformer encoder, the L2 normalization and
  the FAISS L2 distance are function parameters.  A FAISS `IndexFlatL2` is
  modelled as the list of inserted vectors (`ntotal` = length); its `search`
  with `k ≤ ntotal` returns the `k` nearest (distance, position) pairs in
  ascending distance order, modelled by an insertion sort over all positions
  followed by `take k`.
-/

namespace JobAppAuto

/-! ## Python primitives -/

/-- Resolve one bound of a Python slice `s[a:b]` for a sequence of length `n`:
negative indices count from the end, then the result is clamped into `[0, n]`. -/
def pyIdx (n : Nat) (i : Int) : Nat :=
  if i < 0 then ((n : Int) + i).toNat else min i.toNat n

/-- Python slice `s[a:b]` (step 1) on a list of characters. -/
def pySlice (s : List Char) (a b : Int) : List Char :=
  (s.take (pyIdx s.length b)).drop (pyIdx s.length a)

/-- The ASCII whitespace characters removed by Python's `str.strip()`. -/
def isPyWS (c : Char) : Bool :=
  c == ' ' || c == '\t' || c == '\n' || c == '\r' || c == '\x0b' || c == '\x0c'

/-- Python `str.strip()`: drop whitespace from both ends. -/
def pyStrip (s : List Char) : List Char :=
  ((s.dropWhile isPyWS).reverse.dropWhile isPyWS).reverse

/-- Scan candidate start positions `n, n-1, …, 0` for an occurrence of `sub`;
this is how Python's `str.rfind` picks the highest occurrence. -/
def rfindFrom (s sub : List Char) : Nat → Option Nat
  | 0 => if sub.isPrefixOf s then some 0 else none
  | i + 1 => if sub.isPrefixOf (s.drop (i + 1)) then some (i + 1) else rfindFrom s sub i

/-- Python `s.rfind(sub)`: highest index where `sub` occurs, `none` for `-1`.
(The caller `chunk_text` only compares the result against a non-negative
threshold, so `-1` and `none` are interchangeable.) -/
def rfindPos (s sub : List Char) : Option Nat :=
  rfindFrom s sub s.length

/-! ## The float threshold `chunk_size * 0.7`

`chunk_text` compares `last_punct > chunk_size * 0.7` in IEEE-754 binary64
arithmetic.  The following functions model that computation exactly over
`Nat`/`Int` (kernel-computable): a binary64 value is a dyadic rational
`m / 2^e` whose mantissa `m` has at most 53 bits; `0.7` is the double
`3152519739159347 / 2^52`; the int `chunk_size` is converted to double and
multiplied by it, rounding to nearest with ties to even at each step; the
final comparison of the int `last_punct` with the resulting double is exact
(CPython compares int with float exactly).  The model rounds to 53
significant bits at every magnitude, which agrees with binary64 on the whole
normal range; subnormals and overflow (relevant only for chunk sizes beyond
`2^1000`) are not modelled. -/

/-- Number of binary digits of `n` (`0` for `0`), via fuel recursion:
`n < 2 ^ bitLen n`, and `bitLen n ≤ k` whenever `n < 2 ^ k`. -/
def bitLenAux : Nat → Nat → Nat
  | 0, _ => 0
  | fuel + 1, n => if n = 0 then 0 else bitLenAux fuel (n / 2) + 1

/-- Number of binary digits of `n`. -/
def bitLen (n : Nat) : Nat := bitLenAux n n

/-- Round `n / 2^sh` to the nearest integer, ties to even. -/
def rneNat (n sh : Nat) : Nat :=
  let d := 2 ^ sh
  let q := n / d
  let r := n % d
  if 2 * r < d then q
  else if d < 2 * r then q + 1
  else if q % 2 = 0 then q else q + 1

/-- Round the dyadic rational `n / 2^e` to the nearest binary64 value
(53-bit mantissa, ties to even); the result is the dyadic `m / 2^f`.  When
`n` already fits in 53 bits the value is exactly representable. -/
def floatRound (n : Nat) (e : Int) : Nat × Int :=
  if n < 2 ^ 53 then (n, e)
  else
    let sh := bitLen n - 53
    (rneNat n sh, e - sh)

/-- The mantissa of the double literal `0.7`, whose exact value is
`3152519739159347 / 2^52`. -/
def m07 : Nat := 3152519739159347

/-- The exact value of the Python float expression `chunk_size * 0.7`, as a
dyadic rational `(mantissa, exponent)` with value `mantissa / 2^exponent`:
the int `chunk_size` is converted to double (exact below `2^53`) and
multiplied by the double `0.7`, rounding to nearest-even. -/
def mul07D (S : Nat) : Nat × Int :=
  let f := floatRound S 0
  floatRound (f.1 * m07) (f.2 + 52)

/-- Exact comparison of the dyadic rational `m / 2^e` with the natural
number `i`: decides `m / 2^e < i`.  Models Python's exact int-float
comparison. -/
def dyLt (m : Nat) (e : Int) (i : Nat) : Bool :=
  if 0 ≤ e then m < i * 2 ^ e.toNat else m * 2 ^ (-e).toNat < i

/-- The condition `last_punct > chunk_size * 0.7` of document_parser.py line
174, exactly as Python evaluates it in binary64 arithmetic. -/
def pyCutThreshold (S i : Nat) : Bool :=
  dyLt (mul07D S).1 (mul07D S).2 i

/-! ## `DocumentParser.chunk_text` -/

/-- The sentence-terminator pairs tried, in order, by `chunk_text`
(document_parser.py line 172). -/
def puncts : List (List Char) :=
  [['.', ' '], ['.', '\n'], ['!', ' '], ['!', '\n'], ['?', ' '], ['?', '\n']]

/-- The `for punct in [...]` loop of lines 172-177: try each terminator in
order; the first one whose last occurrence `i` satisfies
`i > chunk_size * 0.7` in binary64 arithmetic (`pyCutThreshold`) wins and
the loop breaks; otherwise continue with the next terminator. -/
def findCutAux (S : Nat) (chunk : List Char) : List (List Char) → Option Nat
  | [] => none
  | p :: ps =>
    match rfindPos chunk p with
    | some i => if pyCutThreshold S i then some i else findCutAux S chunk ps
    | none => findCutAux S chunk ps

/-- The cut position chosen for a tentative window, if any (lines 172-177). -/
def findCut (chunk : List Char) (S : Nat) : Option Nat :=
  findCutAux S chunk puncts

/-- One iteration of the `while` loop of `chunk_text` (lines 165-180), at
window start `start`: returns `(emitted chunk, end, next start)` where the
emitted chunk is `chunk.strip()`, `end` is the (possibly truncated) window
end, and the next start is `end - overlap`. -/
def chunkStep (t : List Char) (S O : Nat) (start : Int) : List Char × Int × Int :=
  let end0 : Int := start + (S : Int)
  let chunk0 := pySlice t start end0
  if end0 < (t.length : Int) then
    match findCut chunk0 S with
    | some i =>
      let chunk1 := chunk0.take (i + 1)
      let end1 : Int := start + (chunk1.length : Int)
      (pyStrip chunk1, end1, end1 - (O : Int))
    | none => (pyStrip chunk0, end0, end0 - (O : Int))
  else (pyStrip chunk0, end0, end0 - (O : Int))

/-- The `while start < len(text)` loop of `chunk_text`, with explicit fuel.
Each produced window is recorded as `(start, end, emitted chunk)`; the Python
code keeps only the chunk, which `chunkText` projects out.  `none` means the
fuel ran out before the loop exited. -/
def chunkLoopFull (t : List Char) (S O : Nat) :
    Nat → Int → List (Int × Int × List Char) → Option (List (Int × Int × List Char))
  | 0, _, _ => none
  | fuel + 1, start, acc =>
    if start < (t.length : Int) then
      let r := chunkStep t S O start
      chunkLoopFull t S O fuel r.2.2 (acc ++ [(start, r.2.1, r.1)])
    else some acc

/-- `DocumentParser.chunk_text(text, chunk_size, overlap)` (lines 147-182).
The default fuel `len(text) + 1` suffices for every execution in which each
iteration advances `start` by at least one character, so on those inputs this
agrees with the (fuel-free) Python loop; `none` only arises on inputs where
the Python loop fails to advance. -/
def chunkText (t : List Char) (S O : Nat) : Option (List (List Char)) :=
  if t.length ≤ S then some [t]
  else (chunkLoopFull t S O (t.length + 1) 0 []).map (fun ws => ws.map (fun w => w.2.2))

/-- The Python `while` loop of `chunk_text` terminates on the given input:
some amount of fuel makes the loop exit normally. -/
def chunkTerminates (t : List Char) (S O : Nat) : Prop :=
  ∃ fuel, (chunkLoopFull t S O fuel 0 []).isSome

/-- The non-overlapping span of each recorded window: for every window but the
last, the text from its start up to the next window's start (`end - O`); for
the last window, the text from its start to the end of the text. -/
def spanConcat (t : List Char) (O : Nat) : List (Int × Int × List Char) → List Char
  | [] => []
  | w :: rest =>
    match rest with
    | [] => pySlice t w.1 (t.length : Int)
    | _ :: _ => pySlice t w.1 (w.2.1 - (O : Int)) ++ spanConcat t O rest

/-- Modelled from the spec words of claim C6 (refinement comparison only; the
code's own rule is `findCut`): the cut position is the *maximal* position of
an occurrence of *any* of the six terminator pairs, accepted when it lies in
the last 30% of the window. -/
def specMaxCut (chunk : List Char) (S : Nat) : Option Nat :=
  match ((puncts.map (fun p => rfindPos chunk p)).reduceOption).max? with
  | some i => if pyCutThreshold S i then some i else none
  | none => none

/-! ## `VectorStore` (scripts/vector_store.py)

`Vec` is the type of embedding vectors and `Meta` the type of metadata dicts,
both opaque; `embed` models `self.embedder.encode` on a single text,
`normalize` models `faiss.normalize_L2` on a single vector, `dist` models the
squared-L2 distances reported by `faiss.IndexFlatL2.search`, and `mkMeta`
builds the default metadata dict `{'text': text[:100]}` from the truncated
text. -/

/-- The state of a `VectorStore` object: `self.index` (a FAISS flat index is
its list of inserted vectors, `ntotal` = length, or `None`), `self.metadata`,
and `self.index_type`. -/
structure VectorStore (Vec Meta : Type) where
  index : Option (List Vec)
  metadata : List Meta
  indexType : String

/-- `VectorStore.__init__` with no prior persisted state: `index_type` is
stored unvalidated, `self.index = None`, `self.metadata = []`
(`_load_index` finds no files and changes nothing).  Construction performs no
index-type check, so it always succeeds. -/
def mkVectorStore (Vec Meta : Type) (indexType : String) : VectorStore Vec Meta :=
  ⟨none, [], indexType⟩

/-- `VectorStore._create_index` (lines 53-69): `'flat'`, `'ivf'` and `'hnsw'`
all build the same empty `IndexFlatL2`; anything else raises `ValueError`. -/
def createIndex (Vec : Type) (indexType : String) : Except String (List Vec) :=
  if indexType = "flat" then .ok []
  else if indexType = "ivf" then .ok []
  else if indexType = "hnsw" then .ok []
  else .error ("Unsupported index type: " ++ indexType)

/-- `self.index.ntotal`, taken as `0` when the index is absent. -/
def ntotal {Vec Meta : Type} (s : VectorStore Vec Meta) : Nat :=
  match s.index with
  | none => 0
  | some vecs => vecs.length

section Store

variable {Vec Meta : Type}
variable (embed : String → Vec) (normalize : Vec → Vec)
variable (dist : Vec → Vec → Rat) (mkMeta : String → Meta)

/-- Lines 93-100 of `add_documents`, reached once an index exists:
`self.index.add(embeddings)` then `self.metadata.extend(...)`, where a falsy
`metadata` argument (`None` or `[]`) selects the default records
`[{'text': text[:100]} for text in texts]`. -/
def commitAdd (s : VectorStore Vec Meta) (idx : List Vec) (embeddings : List Vec)
    (texts : List String) (metadata : Option (List Meta)) : VectorStore Vec Meta :=
  let newMeta :=
    match metadata with
    | some m => if m.isEmpty then texts.map (fun t => mkMeta (t.take 100)) else m
    | none => texts.map (fun t => mkMeta (t.take 100))
  { s with index := some (idx ++ embeddings), metadata := s.metadata ++ newMeta }

/-- `VectorStore.add_documents(texts, metadata)` (lines 71-102), as a function
from the object state to (state after the call, raised exception if any).
Empty `texts` returns immediately; otherwise the texts are embedded and
normalized, the index is created lazily (a `ValueError` from `_create_index`
propagates before `self.index` is assigned and before any mutation), the
embeddings are appended to the index and the metadata list is extended —
with no length check whatsoever against `len(texts)`. -/
def addDocuments (s : VectorStore Vec Meta) (texts : List String)
    (metadata : Option (List Meta)) : VectorStore Vec Meta × Option String :=
  if texts.isEmpty then (s, none)
  else
    let embeddings := texts.map (fun t => normalize (embed t))
    match s.index with
    | none =>
      match createIndex Vec s.indexType with
      | .error e => (s, some e)
      | .ok idx => (commitAdd mkMeta s idx embeddings texts metadata, none)
    | some idx => (commitAdd mkMeta s idx embeddings texts metadata, none)

/-- Insert `a` into a list sorted by `le`, keeping it sorted. -/
def insertSorted {α : Type} (le : α → α → Bool) (a : α) : List α → List α
  | [] => [a]
  | b :: bs => if le a b then a :: b :: bs else b :: insertSorted le a bs

/-- Insertion sort by `le`. -/
def sortBy {α : Type} (le : α → α → Bool) : List α → List α
  | [] => []
  | a :: as => insertSorted le a (sortBy le as)

/-- `faiss.IndexFlatL2.search(query, k)` with `k ≤ ntotal`: the `k` nearest
`(distance, position)` pairs, ascending by distance, every position a valid
index into the stored vectors. -/
def faissTopK (vecs : List Vec) (q : Vec) (k : Nat) : List (Rat × Nat) :=
  (sortBy (fun a b => decide (a.1 ≤ b.1)) (vecs.enum.map (fun p => (dist q p.2, p.1)))).take k

/-- `VectorStore.search(query, k)` (lines 104-135): empty result on an absent
or empty index; otherwise embed and normalize the query, clamp `k` to
`ntotal`, take the `k` nearest positions, and keep `(1 / (1 + distance),
metadata[idx])` for each returned position with `idx < len(self.metadata)`. -/
def search [Inhabited Meta] (s : VectorStore Vec Meta) (query : String) (k : Nat) : List (Rat × Meta) :=
  match s.index with
  | none => []
  | some vecs =>
    if vecs.length = 0 then []
    else
      let qv := normalize (embed query)
      let k1 := min k vecs.length
      (faissTopK dist vecs qv k1).filterMap
        (fun p => if p.2 < s.metadata.length then some (1 / (1 + p.1), s.metadata.getD p.2 default) else none)

/-- A sequence of `add_documents` calls, threading the object state; a call
that raises leaves the state as it was at the raise point. -/
def applyCalls (s : VectorStore Vec Meta)
    (reqs : List (List String × Option (List Meta))) : VectorStore Vec Meta :=
  reqs.foldl (fun st r => (addDocuments embed normalize mkMeta st r.1 r.2).1) s

end Store

/-! ## Helper lemmas: Python slices and strip -/

theorem pyIdx_of_nonneg (n : Nat) (i : Int) (h : 0 ≤ i) : pyIdx n i = min i.toNat n := by
  simp [pyIdx, not_lt.mpr h]

theorem pySlice_nonneg_eq (t : List Char) (a b : Int) (ha : 0 ≤ a) :
    pySlice t a b = (t.take (pyIdx t.length b)).drop a.toNat := by
  unfold pySlice
  rw [pyIdx_of_nonneg _ _ ha]
  rcases le_total a.toNat t.length with h | h
  · rw [min_eq_left h]
  · rw [min_eq_right h]
    have h1 : (t.take (pyIdx t.length b)).length ≤ t.length :=
      le_trans (List.length_take _ _ ▸ min_le_right _ _) le_rfl
    rw [List.drop_eq_nil_of_le h1, List.drop_eq_nil_of_le (le_trans h1 h)]

theorem pySlice_length_le (t : List Char) (a : Int) (S : Nat) (ha : 0 ≤ a) :
    (pySlice t a (a + (S : Int))).length ≤ S := by
  rw [pySlice_nonneg_eq t _ _ ha, pyIdx_of_nonneg _ _ (by omega)]
  have htn : (a + (S : Int)).toNat = a.toNat + S := by omega
  simp [List.length_drop, List.length_take, htn]
  omega

theorem pySlice_length_eq (t : List Char) (a : Int) (S : Nat) (ha : 0 ≤ a)
    (hb : a + (S : Int) < (t.length : Int)) :
    (pySlice t a (a + (S : Int))).length = S := by
  rw [pySlice_nonneg_eq t _ _ ha, pyIdx_of_nonneg _ _ (by omega)]
  have htn : (a + (S : Int)).toNat = a.toNat + S := by omega
  simp [List.length_drop, List.length_take, htn]
  omega

theorem pySlice_to_len (t : List Char) (a : Int) (ha : 0 ≤ a) :
    pySlice t a (t.length : Int) = t.drop a.toNat := by
  rw [pySlice_nonneg_eq t _ _ ha, pyIdx_of_nonneg _ _ (by omega)]
  simp

theorem pySlice_of_ge_len (t : List Char) (a : Int) (ha : 0 ≤ a)
    (h : (t.length : Int) ≤ a) : pySlice t a (t.length : Int) = [] := by
  rw [pySlice_to_len t a ha]
  exact List.drop_eq_nil_of_le (by omega)

theorem pySlice_zero_len (t : List Char) : pySlice t 0 (t.length : Int) = t := by
  rw [pySlice_to_len t 0 le_rfl]
  rfl

theorem pySlice_append (t : List Char) (a c : Int) (ha : 0 ≤ a) (hac : a ≤ c) :
    pySlice t a c ++ pySlice t c (t.length : Int) = pySlice t a (t.length : Int) := by
  have hc : 0 ≤ c := le_trans ha hac
  rw [pySlice_to_len t c hc, pySlice_to_len t a ha,
    pySlice_nonneg_eq t a c ha, pyIdx_of_nonneg _ _ hc]
  have hN : a.toNat ≤ c.toNat := Int.toNat_le_toNat hac
  have htake : t.take (min c.toNat t.length) = t.take c.toNat := by
    rw [List.take_eq_take]
    omega
  rw [htake, List.drop_take]
  have key := List.take_append_drop (c.toNat - a.toNat) (t.drop a.toNat)
  rw [List.drop_drop] at key
  have harith : a.toNat + (c.toNat - a.toNat) = c.toNat := by omega
  rw [harith] at key
  exact key

theorem pyStrip_length_le (l : List Char) : (pyStrip l).length ≤ l.length := by
  unfold pyStrip
  have h1 : ((l.dropWhile isPyWS).reverse.dropWhile isPyWS).length ≤
      (l.dropWhile isPyWS).reverse.length :=
    (List.dropWhile_sublist _).length_le
  have h2 : (l.dropWhile isPyWS).length ≤ l.length := (List.dropWhile_sublist _).length_le
  simp only [List.length_reverse] at h1 ⊢
  omega

/-! ## Helper lemmas: rfind and the cut search -/

theorem rfindFrom_eq_some (s sub : List Char) :
    ∀ n i, rfindFrom s sub n = some i → i ≤ n ∧ sub.isPrefixOf (s.drop i) := by
  intro n
  induction n with
  | zero =>
    intro i h
    simp only [rfindFrom] at h
    split at h
    · cases h
      simpa using ‹sub.isPrefixOf s = true›
    · cases h
  | succ m ih =>
    intro i h
    simp only [rfindFrom] at h
    split at h
    · cases h
      exact ⟨le_rfl, ‹_›⟩
    · rcases ih i h with ⟨h1, h2⟩
      exact ⟨le_trans h1 (Nat.le_succ m), h2⟩

theorem rfindFrom_max (s sub : List Char) :
    ∀ n i, rfindFrom s sub n = some i →
      ∀ j, j ≤ n → sub.isPrefixOf (s.drop j) → j ≤ i := by
  intro n
  induction n with
  | zero =>
    intro i _ j hj _
    omega
  | succ m ih =>
    intro i h j hj hpre
    simp only [rfindFrom] at h
    split at h
    · cases h
      exact hj
    · rcases Nat.lt_or_ge j (m + 1) with hlt | hge
      · exact ih i h j (by omega) hpre
      · have : j = m + 1 := by omega
        subst this
        exact absurd hpre (by simpa using ‹¬ sub.isPrefixOf (s.drop (m + 1)) = true›)

theorem occurrence_le_length (s sub : List Char) (hsub : sub ≠ []) (j : Nat)
    (h : sub.isPrefixOf (s.drop j)) : j ≤ s.length := by
  by_contra hgt
  rw [List.drop_eq_nil_of_le (by omega)] at h
  rw [List.isPrefixOf_iff_prefix, List.prefix_nil] at h
  exact hsub h

theorem rfindPos_eq_some (s sub : List Char) (i : Nat) (h : rfindPos s sub = some i) :
    sub.isPrefixOf (s.drop i) ∧
      (sub ≠ [] → ∀ j, sub.isPrefixOf (s.drop j) → j ≤ i) := by
  refine ⟨(rfindFrom_eq_some s sub s.length i h).2, fun hsub j hj => ?_⟩
  exact rfindFrom_max s sub s.length i h j (occurrence_le_length s sub hsub j hj) hj

theorem findCutAux_spec (S : Nat) (c : List Char) :
    ∀ ps i, findCutAux S c ps = some i →
      ∃ l1 p l2, ps = l1 ++ p :: l2 ∧ rfindPos c p = some i ∧ pyCutThreshold S i = true ∧
        ∀ q ∈ l1, ∀ j, rfindPos c q = some j → ¬ pyCutThreshold S j = true := by
  intro ps
  induction ps with
  | nil => intro i h; cases h
  | cons p ps ih =>
    intro i h
    rcases hr : rfindPos c p with _ | i0
    · simp only [findCutAux, hr] at h
      rcases ih i h with ⟨l1, p', l2, heq, h1, h2, h3⟩
      refine ⟨p :: l1, p', l2, by rw [heq, List.cons_append], h1, h2, ?_⟩
      intro q hq j hj
      rcases List.mem_cons.mp hq with rfl | hmem
      · rw [hr] at hj; cases hj
      · exact h3 q hmem j hj
    · simp only [findCutAux, hr] at h
      by_cases hcond : pyCutThreshold S i0 = true
      · rw [if_pos hcond] at h
        cases h
        exact ⟨[], p, ps, rfl, hr, hcond, by intro q hq; cases hq⟩
      · rw [if_neg hcond] at h
        rcases ih i h with ⟨l1, p', l2, heq, h1, h2, h3⟩
        refine ⟨p :: l1, p', l2, by rw [heq, List.cons_append], h1, h2, ?_⟩
        intro q hq j hj
        rcases List.mem_cons.mp hq with rfl | hmem
        · rw [hr] at hj
          cases hj
          exact hcond
        · exact h3 q hmem j hj

theorem findCut_facts (c : List Char) (S i : Nat) (h : findCut c S = some i) :
    pyCutThreshold S i = true ∧ ∃ p, p ∈ puncts ∧ rfindPos c p = some i := by
  rcases findCutAux_spec S c puncts i h with ⟨l1, p, l2, heq, h1, h2, _⟩
  exact ⟨h2, p, by rw [heq]; exact List.mem_append_right _ (List.mem_cons_self _ _), h1⟩

theorem puncts_length (p : List Char) (hp : p ∈ puncts) : p.length = 2 := by
  fin_cases hp <;> rfl

/-! ## Helper lemmas: the float threshold -/

theorem bitLenAux_lt : ∀ fuel n, n ≤ fuel → n < 2 ^ bitLenAux fuel n := by
  intro fuel
  induction fuel with
  | zero =>
    intro n h
    have hn : n = 0 := by omega
    subst hn
    decide
  | succ fuel ih =>
    intro n h
    unfold bitLenAux
    by_cases h0 : n = 0
    · rw [if_pos h0]
      subst h0
      decide
    · rw [if_neg h0]
      have hrec := ih (n / 2) (by omega)
      have hp : 2 ^ (bitLenAux fuel (n / 2) + 1) = 2 * 2 ^ bitLenAux fuel (n / 2) := by
        rw [pow_succ]
        ring
      omega

theorem bitLen_lt (n : Nat) : n < 2 ^ bitLen n := bitLenAux_lt n n le_rfl

theorem bitLenAux_le : ∀ fuel n k, n ≤ fuel → n < 2 ^ k → bitLenAux fuel n ≤ k := by
  intro fuel
  induction fuel with
  | zero =>
    intro n k _ _
    simp [bitLenAux]
  | succ fuel ih =>
    intro n k h hk
    unfold bitLenAux
    by_cases h0 : n = 0
    · rw [if_pos h0]
      omega
    · rw [if_neg h0]
      have hk1 : 1 ≤ k := by
        by_contra hc
        have hke : k = 0 := by omega
        subst hke
        simp at hk
        omega
      have hp : 2 * 2 ^ (k - 1) = 2 ^ k := by
        rw [← pow_succ']
        congr 1
        omega
      have hhalf : n / 2 < 2 ^ (k - 1) := by omega
      have := ih (n / 2) (k - 1) (by omega) hhalf
      omega

theorem bitLen_le_of_lt (n k : Nat) (h : n < 2 ^ k) : bitLen n ≤ k :=
  bitLenAux_le n n k le_rfl h

theorem rneNat_ge (n sh : Nat) : n / 2 ^ sh ≤ rneNat n sh := by
  unfold rneNat
  dsimp only
  split_ifs <;> omega

/-- Any index accepted by the float threshold `i > S * 0.7` is at least
`⌊7S/10⌋` (for realistic chunk sizes): the double product can round to
either side of the exact `7S/10`, but stays well within distance one. -/
theorem pyCutThreshold_ge (S i : Nat) (h2 : 2 ≤ S) (hS : S ≤ 2 ^ 40)
    (h : pyCutThreshold S i = true) : 7 * S / 10 ≤ i := by
  have hSlit : (2 : Nat) ^ 40 = 1099511627776 := by norm_num
  have hSlt : S < 2 ^ 53 := by
    have : (2 : Nat) ^ 53 = 9007199254740992 := by norm_num
    omega
  have hfS : floatRound S 0 = (S, 0) := by
    unfold floatRound
    rw [if_pos hSlt]
  unfold pyCutThreshold mul07D at h
  rw [hfS] at h
  dsimp only at h
  have he0 : (0 : Int) + 52 = 52 := by norm_num
  rw [he0] at h
  set n := S * m07 with hn
  have h10n : 10 * n = 31525197391593470 * S := by
    rw [hn]
    unfold m07
    ring
  by_cases hlt : n < 2 ^ 53
  · have hfr : floatRound n 52 = (n, 52) := by
      unfold floatRound
      rw [if_pos hlt]
    rw [hfr] at h
    dsimp only at h
    unfold dyLt at h
    rw [if_pos (by norm_num : (0 : Int) ≤ 52)] at h
    have h1 : n < i * 2 ^ ((52 : Int)).toNat := of_decide_eq_true h
    have htn : ((52 : Int)).toNat = 52 := rfl
    rw [htn] at h1
    have l52 : (2 : Nat) ^ 52 = 4503599627370496 := by norm_num
    rw [l52] at h1
    omega
  · have hge53 : 2 ^ 53 ≤ n := le_of_not_lt hlt
    have hfr : floatRound n 52 = (rneNat n (bitLen n - 53), 52 - ((bitLen n - 53 : Nat) : Int)) := by
      unfold floatRound
      rw [if_neg hlt]
    rw [hfr] at h
    dsimp only at h
    set sh := bitLen n - 53 with hsh
    have hm07lit : m07 = 3152519739159347 := rfl
    have hnle : n ≤ 2 ^ 40 * m07 := by
      rw [hn]
      exact Nat.mul_le_mul_right m07 hS
    have hlit92 : (2 : Nat) ^ 40 * m07 < 2 ^ 92 := by
      rw [hm07lit]
      norm_num
    have hbl92 : bitLen n ≤ 92 := bitLen_le_of_lt n 92 (lt_of_le_of_lt hnle hlit92)
    have hbl54 : 54 ≤ bitLen n := by
      by_contra hcon
      have hx := bitLen_lt n
      have hle : (2 : Nat) ^ bitLen n ≤ 2 ^ 53 :=
        Nat.pow_le_pow_right (by norm_num) (by omega)
      omega
    have hsh39 : sh ≤ 39 := by omega
    have hsh1 : 1 ≤ sh := by omega
    have hepos : (0 : Int) ≤ 52 - (sh : Int) := by omega
    unfold dyLt at h
    rw [if_pos hepos] at h
    have h1 : rneNat n sh < i * 2 ^ ((52 : Int) - (sh : Int)).toNat := of_decide_eq_true h
    have hetn : ((52 : Int) - (sh : Int)).toNat = 52 - sh := by omega
    rw [hetn] at h1
    have hd : 0 < 2 ^ sh := Nat.pow_pos (by norm_num)
    have hrne : n < 2 ^ sh * rneNat n sh + 2 ^ sh := by
      have hq := Nat.div_add_mod n (2 ^ sh)
      have hr := Nat.mod_lt n hd
      have h3 : 2 ^ sh * (n / 2 ^ sh) ≤ 2 ^ sh * rneNat n sh :=
        Nat.mul_le_mul_left _ (rneNat_ge n sh)
      omega
    have hpow : 2 ^ (52 - sh) * 2 ^ sh = 2 ^ 52 := by
      rw [← pow_add]
      congr 1
      omega
    have hh : 2 ^ sh * rneNat n sh < i * 2 ^ 52 := by
      calc 2 ^ sh * rneNat n sh = rneNat n sh * 2 ^ sh := Nat.mul_comm _ _
        _ < i * 2 ^ (52 - sh) * 2 ^ sh := by
            exact Nat.mul_lt_mul_of_lt_of_le h1 le_rfl hd
        _ = i * 2 ^ 52 := by rw [mul_assoc, hpow]
    have h39 : 2 ^ sh ≤ 2 ^ 39 := Nat.pow_le_pow_right (by norm_num) hsh39
    have l52 : (2 : Nat) ^ 52 = 4503599627370496 := by norm_num
    have l39 : (2 : Nat) ^ 39 = 549755813888 := by norm_num
    rw [l52] at hh
    rw [l39] at h39
    omega

/-! ## Helper lemmas: one loop iteration -/

theorem chunkStep_eq_cut (t : List Char) (S O : Nat) (start : Int) (i : Nat)
    (hlt : start + (S : Int) < (t.length : Int))
    (hc : findCut (pySlice t start (start + (S : Int))) S = some i) :
    chunkStep t S O start =
      (pyStrip ((pySlice t start (start + (S : Int))).take (i + 1)),
       start + (((pySlice t start (start + (S : Int))).take (i + 1)).length : Int),
       start + (((pySlice t start (start + (S : Int))).take (i + 1)).length : Int) - (O : Int)) := by
  simp [chunkStep, hlt, hc]

theorem chunkStep_eq_nocut (t : List Char) (S O : Nat) (start : Int)
    (hlt : start + (S : Int) < (t.length : Int))
    (hc : findCut (pySlice t start (start + (S : Int))) S = none) :
    chunkStep t S O start =
      (pyStrip (pySlice t start (start + (S : Int))),
       start + (S : Int), start + (S : Int) - (O : Int)) := by
  simp [chunkStep, hlt, hc]

theorem chunkStep_eq_tail (t : List Char) (S O : Nat) (start : Int)
    (hge : ¬ start + (S : Int) < (t.length : Int)) :
    chunkStep t S O start =
      (pyStrip (pySlice t start (start + (S : Int))),
       start + (S : Int), start + (S : Int) - (O : Int)) := by
  simp [chunkStep, hge]

/-- In the truncation branch the cut index `i` satisfies `i + 2 ≤ S`:
the two-character terminator occurs at `i` inside the full-length window. -/
theorem findCut_index_lt (t : List Char) (S : Nat) (start : Int) (i : Nat)
    (h0 : 0 ≤ start) (hlt : start + (S : Int) < (t.length : Int))
    (hc : findCut (pySlice t start (start + (S : Int))) S = some i) :
    i + 2 ≤ S := by
  rcases findCut_facts _ _ _ hc with ⟨_, p, hp, hr⟩
  have hocc := (rfindPos_eq_some _ _ _ hr).1
  have hlen : p.length ≤ ((pySlice t start (start + (S : Int))).drop i).length :=
    ((List.isPrefixOf_iff_prefix).mp hocc).length_le
  rw [List.length_drop, puncts_length p hp, pySlice_length_eq t start S h0 hlt] at hlen
  omega

/-- Advancement and chunk-size facts for one loop iteration, under the
overlap bounds that make every branch advance: the produced next start is
`end - O`, it advances by at least one character, and the emitted chunk has
at most `S` characters. -/
theorem chunkStep_spec (t : List Char) (S O : Nat) (start : Int)
    (h0 : 0 ≤ start) (hOS : O < S) (hOB : O ≤ 7 * S / 10) (hSbig : S ≤ 2 ^ 40) :
    (chunkStep t S O start).2.2 = (chunkStep t S O start).2.1 - (O : Int) ∧
      start + 1 ≤ (chunkStep t S O start).2.2 ∧
      (chunkStep t S O start).1.length ≤ S := by
  by_cases hlt : start + (S : Int) < (t.length : Int)
  · rcases hc : findCut (pySlice t start (start + (S : Int))) S with _ | i
    · rw [chunkStep_eq_nocut t S O start hlt hc]
      refine ⟨rfl, by dsimp only; omega, ?_⟩
      exact le_trans (pyStrip_length_le _) (pySlice_length_le t start S h0)
    · rw [chunkStep_eq_cut t S O start i hlt hc]
      have hi2 : i + 2 ≤ S := findCut_index_lt t S start i h0 hlt hc
      have hthr : pyCutThreshold S i = true := (findCut_facts _ _ _ hc).1
      have hge : 7 * S / 10 ≤ i := pyCutThreshold_ge S i (by omega) hSbig hthr
      have hOi : O ≤ i := le_trans hOB hge
      have hlen1 : ((pySlice t start (start + (S : Int))).take (i + 1)).length = i + 1 := by
        rw [List.length_take, pySlice_length_eq t start S h0 hlt]
        omega
      refine ⟨rfl, ?_, ?_⟩
      · dsimp only
        rw [hlen1]
        omega
      · exact le_trans (pyStrip_length_le _) (by rw [hlen1]; omega)
  · rw [chunkStep_eq_tail t S O start hlt]
    refine ⟨rfl, by dsimp only; omega, ?_⟩
    exact le_trans (pyStrip_length_le _) (pySlice_length_le t start S h0)

/-! ## Helper lemmas: the chunking loop -/

theorem chunkLoopFull_succ_lt (t : List Char) (S O : Nat) (fuel : Nat) (start : Int)
    (acc : List (Int × Int × List Char)) (h : start < (t.length : Int)) :
    chunkLoopFull t S O (fuel + 1) start acc =
      chunkLoopFull t S O fuel (chunkStep t S O start).2.2
        (acc ++ [(start, (chunkStep t S O start).2.1, (chunkStep t S O start).1)]) := by
  simp [chunkLoopFull, h]

theorem chunkLoopFull_succ_ge (t : List Char) (S O : Nat) (fuel : Nat) (start : Int)
    (acc : List (Int × Int × List Char)) (h : ¬ start < (t.length : Int)) :
    chunkLoopFull t S O (fuel + 1) start acc = some acc := by
  simp [chunkLoopFull, h]

theorem chunkLoopFull_acc (t : List Char) (S O : Nat) :
    ∀ fuel (start : Int) acc,
      chunkLoopFull t S O fuel start acc =
        (chunkLoopFull t S O fuel start []).map (fun l => acc ++ l) := by
  intro fuel
  induction fuel with
  | zero => intro start acc; rfl
  | succ fuel ih =>
    intro start acc
    by_cases h : start < (t.length : Int)
    · rw [chunkLoopFull_succ_lt t S O fuel start acc h,
        chunkLoopFull_succ_lt t S O fuel start [] h, ih, ih _ ([] ++ _)]
      rcases chunkLoopFull t S O fuel (chunkStep t S O start).2.2 [] with _ | l
      · rfl
      · simp
    · rw [chunkLoopFull_succ_ge t S O fuel start acc h,
        chunkLoopFull_succ_ge t S O fuel start [] h]
      simp

/-- If one loop iteration fails to advance (`end - overlap` equals the
current start) while the start is still inside the text, the Python `while`
loop never exits: no amount of fuel produces a result. -/
theorem chunkLoopFull_none_of_fixpoint (t : List Char) (S O : Nat) (s : Int)
    (hfix : (chunkStep t S O s).2.2 = s) (hlt : s < (t.length : Int)) :
    ∀ fuel acc, chunkLoopFull t S O fuel s acc = none := by
  intro fuel
  induction fuel with
  | zero => intro acc; rfl
  | succ fuel ih =>
    intro acc
    rw [chunkLoopFull_succ_lt t S O fuel s acc hlt, hfix]
    exact ih _

theorem spanConcat_single (t : List Char) (O : Nat) (w : Int × Int × List Char) :
    spanConcat t O [w] = pySlice t w.1 (t.length : Int) := rfl

theorem spanConcat_cons (t : List Char) (O : Nat) (w w2 : Int × Int × List Char)
    (rest : List (Int × Int × List Char)) :
    spanConcat t O (w :: w2 :: rest) =
      pySlice t w.1 (w.2.1 - (O : Int)) ++ spanConcat t O (w2 :: rest) := rfl

/-- Main loop invariant: a successful run starting at `start ≥ 0` covers
exactly the text from `start` to the end with the non-overlapping spans of
its windows, and every emitted chunk has at most `S` characters. -/
theorem chunkLoopFull_spans (t : List Char) (S O : Nat)
    (hOS : O < S) (hOB : O ≤ 7 * S / 10) (hSbig : S ≤ 2 ^ 40) :
    ∀ fuel (start : Int), 0 ≤ start → ∀ ws,
      chunkLoopFull t S O fuel start [] = some ws →
      spanConcat t O ws = pySlice t start (t.length : Int) ∧
        ∀ w ∈ ws, w.2.2.length ≤ S := by
  intro fuel
  induction fuel with
  | zero => intro start _ ws h; cases h
  | succ fuel ih =>
    intro start h0 ws hws
    by_cases hlt : start < (t.length : Int)
    · rw [chunkLoopFull_succ_lt t S O fuel start [] hlt,
        chunkLoopFull_acc t S O fuel _ _] at hws
      rcases Option.map_eq_some'.mp hws with ⟨ws', hws', hweq⟩
      rcases chunkStep_spec t S O start h0 hOS hOB hSbig with ⟨hse, hadv, hclen⟩
      have h0' : (0 : Int) ≤ (chunkStep t S O start).2.2 := by omega
      rcases ih (chunkStep t S O start).2.2 h0' ws' hws' with ⟨hspan', hlen'⟩
      have hweq' : ws = (start, (chunkStep t S O start).2.1, (chunkStep t S O start).1) :: ws' := by
        rw [← hweq]
        simp
      subst hweq'
      rcases ws' with _ | ⟨w2, ws''⟩
      · refine ⟨?_, ?_⟩
        · rw [spanConcat_single]
        · intro w hw
          rcases List.mem_singleton.mp hw with rfl
          exact hclen
      · refine ⟨?_, ?_⟩
        · rw [spanConcat_cons]
          have hstep : ((start, (chunkStep t S O start).2.1, (chunkStep t S O start).1) :
              Int × Int × List Char).2.1 - (O : Int) = (chunkStep t S O start).2.2 := by
            dsimp only
            omega
          rw [hstep, hspan']
          exact pySlice_append t start _ h0 (by omega)
        · intro w hw
          rcases List.mem_cons.mp hw with rfl | hw
          · exact hclen
          · exact hlen' w hw
    · rw [chunkLoopFull_succ_ge t S O fuel start [] hlt] at hws
      cases hws
      refine ⟨?_, by intro w hw; cases hw⟩
      rw [pySlice_of_ge_len t start h0 (by omega)]
      rfl

/-! ## Helper lemmas: vector store -/

theorem length_insertSorted {α : Type} (le : α → α → Bool) (a : α) :
    ∀ l : List α, (insertSorted le a l).length = l.length + 1 := by
  intro l
  induction l with
  | nil => rfl
  | cons b bs ih =>
    unfold insertSorted
    split
    · rfl
    · simp only [List.length_cons, ih]

theorem length_sortBy {α : Type} (le : α → α → Bool) :
    ∀ l : List α, (sortBy le l).length = l.length := by
  intro l
  induction l with
  | nil => rfl
  | cons a as ih =>
    unfold sortBy
    rw [length_insertSorted, ih]
    rfl

theorem mem_insertSorted {α : Type} (le : α → α → Bool) (a x : α) :
    ∀ l : List α, x ∈ insertSorted le a l → x = a ∨ x ∈ l := by
  intro l
  induction l with
  | nil =>
    intro h
    rcases List.mem_singleton.mp h with rfl
    exact Or.inl rfl
  | cons b bs ih =>
    intro h
    unfold insertSorted at h
    split at h
    · rcases List.mem_cons.mp h with rfl | h
      · exact Or.inl rfl
      · exact Or.inr h
    · rcases List.mem_cons.mp h with rfl | h
      · exact Or.inr (List.mem_cons_self _ _)
      · rcases ih h with rfl | h
        · exact Or.inl rfl
        · exact Or.inr (List.mem_cons_of_mem _ h)

theorem mem_sortBy {α : Type} (le : α → α → Bool) (x : α) :
    ∀ l : List α, x ∈ sortBy le l → x ∈ l := by
  intro l
  induction l with
  | nil => intro h; cases h
  | cons a as ih =>
    intro h
    unfold sortBy at h
    rcases mem_insertSorted le a x _ h with rfl | h
    · exact List.mem_cons_self _ _
    · exact List.mem_cons_of_mem _ (ih h)

theorem fst_lt_of_mem_enum {α : Type} (l : List α) (p : Nat × α) (h : p ∈ l.enum) :
    p.1 < l.length := by
  have := List.mem_enum_iff_getElem?.mp h
  exact (List.getElem?_eq_some.mp this).1

theorem length_filterMap_of_all {α β : Type} (f : α → Option β) :
    ∀ l : List α, (∀ a ∈ l, (f a).isSome) → (l.filterMap f).length = l.length := by
  intro l
  induction l with
  | nil => intro _; rfl
  | cons a as ih =>
    intro h
    have ha := h a (List.mem_cons_self _ _)
    rcases Option.isSome_iff_exists.mp ha with ⟨b, hb⟩
    rw [List.filterMap_cons, hb]
    simp only [List.length_cons]
    rw [ih (fun x hx => h x (List.mem_cons_of_mem _ hx))]

theorem createIndex_ok (Vec : Type) (indexType : String) (idx : List Vec)
    (h : createIndex Vec indexType = .ok idx) : idx = [] := by
  unfold createIndex at h
  split_ifs at h <;> cases h <;> rfl

theorem createIndex_error (Vec : Type) (indexType : String)
    (h1 : indexType ≠ "flat") (h2 : indexType ≠ "ivf") (h3 : indexType ≠ "hnsw") :
    createIndex Vec indexType = .error ("Unsupported index type: " ++ indexType) := by
  unfold createIndex
  rw [if_neg h1, if_neg h2, if_neg h3]

section StoreLemmas

variable {Vec Meta : Type}
variable (embed : String → Vec) (normalize : Vec → Vec)
variable (dist : Vec → Vec → Rat) (mkMeta : String → Meta)

/-- Number of records `commitAdd` appends to the metadata list. -/
def newMetaLen {Meta : Type} (texts : List String) (metadata : Option (List Meta)) : Nat :=
  match metadata with
  | some m => if m.isEmpty then texts.length else m.length
  | none => texts.length

theorem newMetaLen_eq {Meta : Type} (texts : List String) (metadata : Option (List Meta))
    (hm : ∀ m, metadata = some m → ¬ m.isEmpty → m.length = texts.length) :
    newMetaLen texts metadata = texts.length := by
  rcases metadata with _ | m
  · rfl
  · by_cases hme : m.isEmpty
    · simp [newMetaLen, hme]
    · simp [newMetaLen, hme]
      exact hm m rfl hme

theorem commitAdd_metadata_length (s : VectorStore Vec Meta) (idx embeddings : List Vec)
    (texts : List String) (metadata : Option (List Meta)) :
    (commitAdd mkMeta s idx embeddings texts metadata).metadata.length =
      s.metadata.length + newMetaLen texts metadata := by
  unfold commitAdd newMetaLen
  rcases metadata with _ | m
  · simp
  · by_cases hm : m.isEmpty <;> simp [hm]

theorem commitAdd_ntotal (s : VectorStore Vec Meta) (idx embeddings : List Vec)
    (texts : List String) (metadata : Option (List Meta)) :
    ntotal (commitAdd mkMeta s idx embeddings texts metadata) =
      idx.length + embeddings.length := by
  unfold commitAdd ntotal
  simp

/-- One `add_documents` call keeps `len(metadata) == index.ntotal` provided
any non-empty caller-supplied metadata list matches `len(texts)`. -/
theorem addDocuments_alignment (s : VectorStore Vec Meta) (texts : List String)
    (metadata : Option (List Meta))
    (hs : s.metadata.length = ntotal s)
    (hm : ∀ m, metadata = some m → ¬ m.isEmpty → m.length = texts.length) :
    ((addDocuments embed normalize mkMeta s texts metadata).1).metadata.length =
      ntotal (addDocuments embed normalize mkMeta s texts metadata).1 := by
  unfold addDocuments
  by_cases ht : texts.isEmpty
  · rw [if_pos ht]
    exact hs
  · rw [if_neg ht]
    have hmeta := newMetaLen_eq texts metadata hm
    rcases hidx : s.index with _ | idx
    · rcases hci : createIndex Vec s.indexType with e | idx0
      · exact hs
      · have hidx0 := createIndex_ok Vec s.indexType idx0 hci
        subst hidx0
        rw [commitAdd_metadata_length, commitAdd_ntotal, hmeta]
        have : ntotal s = 0 := by unfold ntotal; rw [hidx]
        simp only [List.length_nil, List.length_map]
        omega
    · rw [commitAdd_metadata_length, commitAdd_ntotal, hmeta]
      have : ntotal s = idx.length := by unfold ntotal; rw [hidx]
      simp only [List.length_map]
      omega

end StoreLemmas

/-! ## Claims about `chunk_text` -/

/-- Claim C5 (confirmed): for every text whose length is at most the chunk
size `S`, `chunk_text` returns a one-element list containing exactly the
whole text, unmodified — the early-return path emits the text without
stripping. -/
theorem chunk_text_small_text (t : List Char) (S O : Nat) (h : t.length ≤ S) :
    chunkText t S O = some [t] := by
  unfold chunkText
  rw [if_pos h]

/-- Witness for C5 at a concrete input. -/
theorem chunk_text_small_text_witness :
    "hello world".toList.length ≤ 500 ∧
      chunkText "hello world".toList 500 50 = some ["hello world".toList] :=
  ⟨by decide, chunk_text_small_text "hello world".toList 500 50 (by decide)⟩

/-- Claim C3 (code_bug evidence): with chunk size 10 and overlap 9 — inside
the claimed-safe region `0 ≤ O < S` — the sentence-boundary truncation
shortens the first window to end exactly `overlap` characters after its
start, so `start` is recomputed as `0` forever and the `while` loop of
`chunk_text` never exits, for any amount of fuel. -/
theorem chunk_text_nonterminating_truncation :
    (9 : Nat) < 10 ∧ ¬ chunkTerminates "aaaaaaaa. bbbbbbbbbb".toList 10 9 := by
  refine ⟨by decide, ?_⟩
  rintro ⟨fuel, hf⟩
  rw [chunkLoopFull_none_of_fixpoint "aaaaaaaa. bbbbbbbbbb".toList 10 9 0
    (by decide) (by decide) fuel []] at hf
  cases hf

/-- Claim C4 (code_bug evidence): `chunk_text` performs no validation of the
precondition `O < S`; with `O = S = 3` the loop recomputes `start = 0` on
every iteration and never exits — no `InvalidArgument` (or any other error)
is ever raised, the call simply does not terminate. -/
theorem chunk_text_no_overlap_validation :
    (3 : Nat) ≥ 3 ∧ ¬ chunkTerminates "abcdef".toList 3 3 := by
  refine ⟨le_rfl, ?_⟩
  rintro ⟨fuel, hf⟩
  rw [chunkLoopFull_none_of_fixpoint "abcdef".toList 3 3 0
    (by decide) (by decide) fuel []] at hf
  cases hf

/-- Claim C6 (counterexample): in the first window of this text both `". "`
(position 15) and `"! "` (position 17) lie in the last 30% of the
20-character window.  The maximal-position occurrence over all six
terminator pairs is `"! "` at 17 (`specMaxCut`, the claim's rule), but the
code cuts at `". "` at 15 (`findCut`) because `'. '` comes first in the
fixed punctuation list: the emitted first chunk has 16 characters, not 18. -/
theorem chunk_cut_cex :
    specMaxCut (pySlice "aaaaaaaaaaaaaaa. ! ztail".toList 0 20) 20 = some 17 ∧
      findCut (pySlice "aaaaaaaaaaaaaaa. ! ztail".toList 0 20) 20 = some 15 ∧
      chunkText "aaaaaaaaaaaaaaa. ! ztail".toList 20 5 =
        some ["aaaaaaaaaaaaaaa.".toList, "aaaa. ! ztail".toList] :=
  ⟨by decide, by decide, by decide⟩

/-- Claim C6 (amended): when a window that does not reach the end of the text
is truncated, the cut position `i` is the *last* occurrence of `p`, where `p`
is the *first* terminator in the fixed order
`['. ', '.\n', '! ', '!\n', '? ', '?\n']` whose last occurrence passes the
binary64 threshold `i > S * 0.7` (`pyCutThreshold`, the float product the
program actually compares against — about the last 30% of the window, off by
at most one index where `S * 0.7` rounds across an integer, e.g. `S = 90`);
every terminator earlier in the list has no occurrence passing that
threshold; and the window is truncated to end right after the first
character of `p` (the punctuation mark, excluding the following
space/newline): the emitted chunk is the stripped `chunk[:i+1]` and the new
window end is `start + i + 1`. -/
theorem chunk_cut_first_punct (t : List Char) (S O : Nat) (start : Int) (i : Nat)
    (h0 : 0 ≤ start) (hwin : start + (S : Int) < (t.length : Int))
    (hc : findCut (pySlice t start (start + (S : Int))) S = some i) :
    (∃ l1 p l2, puncts = l1 ++ p :: l2 ∧
        p.isPrefixOf ((pySlice t start (start + (S : Int))).drop i) ∧
        (∀ j, p.isPrefixOf ((pySlice t start (start + (S : Int))).drop j) → j ≤ i) ∧
        pyCutThreshold S i = true ∧
        ∀ q ∈ l1, ∀ jq, rfindPos (pySlice t start (start + (S : Int))) q = some jq →
          ¬ pyCutThreshold S jq = true) ∧
      (chunkStep t S O start).1 =
        pyStrip ((pySlice t start (start + (S : Int))).take (i + 1)) ∧
      (chunkStep t S O start).2.1 = start + ((i : Int) + 1) := by
  rcases findCutAux_spec S _ puncts i hc with ⟨l1, p, l2, hps, hr, hthr, hearlier⟩
  have hpmem : p ∈ puncts := by
    rw [hps]
    exact List.mem_append_right _ (List.mem_cons_self _ _)
  have hpne : p ≠ [] := by
    intro hnil
    have := puncts_length p hpmem
    rw [hnil] at this
    cases this
  have hocc := rfindPos_eq_some _ p i hr
  have hi2 : i + 2 ≤ S := findCut_index_lt t S start i h0 hwin hc
  have hlen1 : ((pySlice t start (start + (S : Int))).take (i + 1)).length = i + 1 := by
    rw [List.length_take, pySlice_length_eq t start S h0 hwin]
    omega
  refine ⟨⟨l1, p, l2, hps, hocc.1, hocc.2 hpne, hthr, hearlier⟩, ?_, ?_⟩
  · rw [chunkStep_eq_cut t S O start i hwin hc]
  · rw [chunkStep_eq_cut t S O start i hwin hc]
    dsimp only
    rw [hlen1]
    push_cast
    ring

/-- Witness for the amended C6 at the counterexample window. -/
theorem chunk_cut_first_punct_witness :
    (∃ l1 p l2, puncts = l1 ++ p :: l2 ∧
        p.isPrefixOf ((pySlice "aaaaaaaaaaaaaaa. ! ztail".toList 0 (0 + (20 : Int))).drop 15) ∧
        (∀ j, p.isPrefixOf ((pySlice "aaaaaaaaaaaaaaa. ! ztail".toList 0 (0 + (20 : Int))).drop j) →
          j ≤ 15) ∧
        pyCutThreshold 20 15 = true ∧
        ∀ q ∈ l1, ∀ jq, rfindPos (pySlice "aaaaaaaaaaaaaaa. ! ztail".toList 0 (0 + (20 : Int))) q =
          some jq → ¬ pyCutThreshold 20 jq = true) ∧
      (chunkStep "aaaaaaaaaaaaaaa. ! ztail".toList 20 5 0).1 =
        pyStrip ((pySlice "aaaaaaaaaaaaaaa. ! ztail".toList 0 (0 + (20 : Int))).take (15 + 1)) ∧
      (chunkStep "aaaaaaaaaaaaaaa. ! ztail".toList 20 5 0).2.1 = 0 + ((15 : Int) + 1) :=
  chunk_cut_first_punct "aaaaaaaaaaaaaaa. ! ztail".toList 20 5 0 15
    (by decide) (by decide) (by decide)

/-- Claim C7 (counterexample): with text `"ab cd ef"`, `S = 5`, `O = 0` the
chunks do not overlap, so the non-overlapping spans of the returned chunks
are the chunks themselves; `chunk_text` returns `["ab cd", "ef"]` and their
concatenation `"ab cdef"` is not the original text: `strip()` discarded the
space at the start of the second window. -/
theorem chunk_concat_cex :
    5 < "ab cd ef".toList.length ∧
      chunkText "ab cd ef".toList 5 0 = some ["ab cd".toList, "ef".toList] ∧
      "ab cd".toList ++ "ef".toList ≠ "ab cd ef".toList :=
  ⟨by decide, by decide, by decide⟩

/-- Claim C7 (amended): for text longer than `S` (with `S ≤ 2^40`, any
realistic chunk size) and an overlap small enough that every iteration
provably advances even at float-threshold boundaries (`O < S` and
`O ≤ ⌊7S/10⌋`: a truncated window always ends strictly after index
`S * 0.7` in binary64, hence at index `⌊7S/10⌋` or later), a completed run
of the window loop satisfies: the concatenation of the windows'
non-overlapping spans (each window from its start to the next window's
start, the last one to the end of the text) is exactly the original text;
every emitted chunk has length at most `S`; and `chunk_text` returns exactly
the stripped chunks of those windows.  Reconstruction holds for the window
spans of the text, not for the whitespace-stripped chunks that `chunk_text`
actually returns. -/
theorem chunk_spans_amended (t : List Char) (S O : Nat)
    (hS : S < t.length) (hOS : O < S) (hOB : O ≤ 7 * S / 10) (hSbig : S ≤ 2 ^ 40)
    (ws : List (Int × Int × List Char))
    (hws : chunkLoopFull t S O (t.length + 1) 0 [] = some ws) :
    spanConcat t O ws = t ∧ (∀ w ∈ ws, w.2.2.length ≤ S) ∧
      chunkText t S O = some (ws.map (fun w => w.2.2)) := by
  rcases chunkLoopFull_spans t S O hOS hOB hSbig (t.length + 1) 0 le_rfl ws hws with ⟨h1, h2⟩
  rw [pySlice_zero_len] at h1
  refine ⟨h1, h2, ?_⟩
  unfold chunkText
  rw [if_neg (by omega), hws]
  rfl

/-- Witness for the amended C7 at a concrete input (`S = 5`, `O = 2`). -/
theorem chunk_spans_witness :
    spanConcat "ab cd ef".toList 2
        [((0 : Int), (5 : Int), "ab cd".toList), (3, 8, "cd ef".toList), (6, 11, "ef".toList)] =
      "ab cd ef".toList ∧
    (∀ w ∈ [((0 : Int), (5 : Int), "ab cd".toList), (3, 8, "cd ef".toList),
        (6, 11, "ef".toList)], w.2.2.length ≤ 5) ∧
    chunkText "ab cd ef".toList 5 2 =
      some (([((0 : Int), (5 : Int), "ab cd".toList), (3, 8, "cd ef".toList),
        (6, 11, "ef".toList)]).map (fun w => w.2.2)) :=
  chunk_spans_amended "ab cd ef".toList 5 2 (by decide) (by decide) (by decide) (by decide)
    [((0 : Int), (5 : Int), "ab cd".toList), (3, 8, "cd ef".toList), (6, 11, "ef".toList)]
    (by decide)

/-! ## Claims about `VectorStore` -/

/-- Claim C1 (counterexample): a single `add_documents` call on a fresh
store, with two texts and a caller-supplied one-element metadata list,
completes without error and leaves 2 vectors in the index but only 1 metadata
record: `len(metadata) == index.count` is violated. -/
theorem add_documents_alignment_cex :
    ntotal ((addDocuments (fun _ => ()) (fun v => v) (fun _ => ())
        (mkVectorStore Unit Unit "flat") ["a", "b"] (some [()])).1) = 2 ∧
      ((addDocuments (fun _ => ()) (fun v => v) (fun _ => ())
        (mkVectorStore Unit Unit "flat") ["a", "b"] (some [()])).1).metadata.length = 1 :=
  ⟨by decide, by decide⟩

/-- Claim C1 (amended): after any sequence of `add_documents` calls in which
every caller-supplied *non-empty* metadata list has the same length as its
texts list, the store keeps `len(metadata) == index.count` (calls that raise
leave the state unchanged and preserve it trivially). -/
theorem add_documents_alignment_seq {Vec Meta : Type} (embed : String → Vec)
    (normalize : Vec → Vec) (mkMeta : String → Meta) (s : VectorStore Vec Meta)
    (reqs : List (List String × Option (List Meta)))
    (hs : s.metadata.length = ntotal s)
    (hval : ∀ r ∈ reqs, ∀ m, r.2 = some m → ¬ m.isEmpty → m.length = r.1.length) :
    (applyCalls embed normalize mkMeta s reqs).metadata.length =
      ntotal (applyCalls embed normalize mkMeta s reqs) := by
  induction reqs generalizing s with
  | nil => exact hs
  | cons r rs ih =>
    unfold applyCalls
    rw [List.foldl_cons]
    exact ih _
      (addDocuments_alignment embed normalize mkMeta s r.1 r.2 hs
        (hval r (List.mem_cons_self _ _)))
      (fun r' hr' => hval r' (List.mem_cons_of_mem _ hr'))

/-- Witness for the amended C1: two valid calls on a fresh store. -/
theorem add_documents_alignment_seq_witness :
    (applyCalls (fun _ => ()) (fun v => v) (fun _ => ())
        (mkVectorStore Unit Unit "flat")
        [(["a", "b"], some [(), ()]), (["c"], none)]).metadata.length =
      ntotal (applyCalls (fun _ => ()) (fun v => v) (fun _ => ())
        (mkVectorStore Unit Unit "flat")
        [(["a", "b"], some [(), ()]), (["c"], none)]) :=
  add_documents_alignment_seq (fun _ => ()) (fun v => v) (fun _ => ())
    (mkVectorStore Unit Unit "flat")
    [(["a", "b"], some [(), ()]), (["c"], none)] rfl
    (by
      intro r hr m hm hme
      rcases List.mem_cons.mp hr with rfl | hr
      · cases hm
        rfl
      · rcases List.mem_singleton.mp hr with rfl
        cases hm)

/-- Claim C2 (code_bug evidence): `add_documents` never checks the length of
a caller-supplied metadata list against `len(texts)`: the mismatched call of
the C1 scenario raises nothing (`None` exception component) and mutates the
store (two vectors are inserted), where the claim requires an
`ArgumentMismatch` failure before any mutation. -/
theorem add_documents_no_length_validation :
    ((addDocuments (fun _ => ()) (fun v => v) (fun _ => ())
        (mkVectorStore Unit Unit "flat") ["a", "b"] (some [()])).2 = none) ∧
      ntotal ((addDocuments (fun _ => ()) (fun v => v) (fun _ => ())
        (mkVectorStore Unit Unit "flat") ["a", "b"] (some [()])).1) ≠ 0 :=
  ⟨by decide, by decide⟩

/-- Claim C8 (confirmed): `search` on a store whose index is absent or holds
zero vectors returns the empty list; being a total function of the state, it
raises nothing. -/
theorem search_empty_store {Vec Meta : Type} [Inhabited Meta] (embed : String → Vec)
    (normalize : Vec → Vec) (dist : Vec → Vec → Rat) (s : VectorStore Vec Meta)
    (query : String) (k : Nat)
    (h : s.index = none ∨ ntotal s = 0) :
    search embed normalize dist s query k = [] := by
  unfold search
  rcases hidx : s.index with _ | vecs
  · rfl
  · rcases h with h | h
    · rw [h] at hidx
      cases hidx
    · have hv : vecs.length = 0 := by
        unfold ntotal at h
        rw [hidx] at h
        exact h
      dsimp only
      rw [if_pos hv]

/-- Witness for C8: a fresh store answers any query with the empty list. -/
theorem search_empty_store_witness :
    search (fun _ => ()) (fun v => v) (fun _ _ => (0 : Rat))
      (mkVectorStore Unit Unit "flat") "anything" 5 = [] :=
  search_empty_store (fun _ => ()) (fun v => v) (fun _ _ => (0 : Rat))
    (mkVectorStore Unit Unit "flat") "anything" 5 (Or.inl rfl)

/-- Claim C9 (confirmed): on a store holding `n > 0` vectors with the
metadata list aligned (length `n`), `search(query, k)` returns exactly
`min k n` results: `k` is clamped to the vector count and the
valid-position filter drops nothing. -/
theorem search_k_clamped {Vec Meta : Type} [Inhabited Meta] (embed : String → Vec)
    (normalize : Vec → Vec) (dist : Vec → Vec → Rat) (s : VectorStore Vec Meta)
    (query : String) (k : Nat) (vecs : List Vec)
    (hidx : s.index = some vecs) (hn : 0 < vecs.length)
    (hmeta : s.metadata.length = vecs.length) :
    (search embed normalize dist s query k).length = min k vecs.length := by
  unfold search
  rw [hidx]
  dsimp only
  rw [if_neg (by omega)]
  have hall : ∀ p ∈ faissTopK dist vecs (normalize (embed query)) (min k vecs.length),
      p.2 < s.metadata.length := by
    intro p hp
    unfold faissTopK at hp
    have hp2 := mem_sortBy _ p _ (List.mem_of_mem_take hp)
    rcases List.mem_map.mp hp2 with ⟨q, hq, rfl⟩
    have hqlt := fst_lt_of_mem_enum vecs q hq
    simpa [hmeta] using hqlt
  rw [length_filterMap_of_all _ _ (fun p hp => by rw [if_pos (hall p hp)]; rfl)]
  unfold faissTopK
  rw [List.length_take, length_sortBy]
  simp only [List.length_map, List.enum_length]
  omega

/-- Witness for C9: a store with one vector, queried with `k = 100`, returns
exactly one result. -/
theorem search_k_clamped_witness :
    (search (fun _ => ()) (fun v => v) (fun _ _ => (0 : Rat))
        (VectorStore.mk (some [()]) [()] "flat") "q" 100).length = min 100 1 :=
  search_k_clamped (fun _ => ()) (fun v => v) (fun _ _ => (0 : Rat))
    (VectorStore.mk (some [()]) [()] "flat") "q" 100 [()] rfl (by decide) rfl

/-- Claim C10 (confirmed): for an `index_type` outside
`{'flat', 'ivf', 'hnsw'}` and no prior persisted state, construction
succeeds (the value is always the store with absent index and empty
metadata); `add_documents` with empty texts raises nothing and changes
nothing; and the first `add_documents` call with non-empty texts raises the
`ValueError` from `_create_index` — after the embedding step but before
`self.index` is assigned or the metadata list touched — leaving the index
absent and the metadata list empty. -/
theorem index_type_deferred_error {Vec Meta : Type} (embed : String → Vec)
    (normalize : Vec → Vec) (mkMeta : String → Meta) (t : String)
    (texts : List String) (md : Option (List Meta))
    (h1 : t ≠ "flat") (h2 : t ≠ "ivf") (h3 : t ≠ "hnsw") (ht : texts ≠ []) :
    (mkVectorStore Vec Meta t).index = none ∧
      (mkVectorStore Vec Meta t).metadata = [] ∧
      addDocuments embed normalize mkMeta (mkVectorStore Vec Meta t) [] md =
        (mkVectorStore Vec Meta t, none) ∧
      addDocuments embed normalize mkMeta (mkVectorStore Vec Meta t) texts md =
        (mkVectorStore Vec Meta t, some ("Unsupported index type: " ++ t)) := by
  refine ⟨rfl, rfl, rfl, ?_⟩
  have hem : texts.isEmpty = false := List.isEmpty_eq_false.mpr ht
  unfold addDocuments
  rw [if_neg (by simp [hem])]
  dsimp only [mkVectorStore]
  rw [createIndex_error Vec t h1 h2 h3]

/-- Witness for C10 with the unsupported kind `"bad"`. -/
theorem index_type_deferred_error_witness :
    (mkVectorStore Unit Unit "bad").index = none ∧
      (mkVectorStore Unit Unit "bad").metadata = [] ∧
      addDocuments (fun _ => ()) (fun v => v) (fun _ => ())
          (mkVectorStore Unit Unit "bad") [] none =
        (mkVectorStore Unit Unit "bad", none) ∧
      addDocuments (fun _ => ()) (fun v => v) (fun _ => ())
          (mkVectorStore Unit Unit "bad") ["x"] none =
        (mkVectorStore Unit Unit "bad", some ("Unsupported index type: " ++ "bad")) :=
  index_type_deferred_error (fun _ => ()) (fun v => v) (fun _ => ()) "bad" ["x"] none
    (by decide) (by decide) (by decide) (by decide)

end JobAppAuto
